import Mathlib

/-!
Verification of the Save-Syncer program (src/main.py).

The development shallowly embeds the program's core functions and proves the
specification's claims about them:

* `parse_definition` — the line-oriented definition-file parser;
* `latest_mtime`     — the recursive newest-modification-time scan;
* `backup`, `copy`   — the trash-backup and copy engines over a model
  filesystem (a finite map from paths to nodes);
* `perform`          — the sync orchestrator;
* `newer_is_win` / `newer_is_lin` — the newest-side display flags of `main`.

Python strings are embedded as `List Char` so that every operation is a
structurally recursive, kernel-computable function; timestamps are `Nat`.
-/

set_option autoImplicit false

deriving instance DecidableEq for Except

namespace SaveSyncer

/-! ### Newest-side display flags (src/main.py lines 185-186) -/

/-- Truthiness of an optional timestamp: a Python `datetime` object is always
truthy and `None` is falsy, so the truth value is presence. -/
def optTruthy (t : Option Nat) : Bool := t.isSome

/-- The comparison `a > b` of two optional timestamps.  In the source the
comparison is only reached when both operands are present (short-circuit
`and`), so the catch-all branch is never consulted there. -/
def optGT : Option Nat → Option Nat → Bool
  | some x, some y => decide (y < x)
  | _, _ => false

/-- Embedding of
`newer_is_win = (w_time and l_time and w_time > l_time) or (w_time and not l_time)`
(src/main.py line 185), as the truth value the expression carries when it is
used as the newest flag. -/
def newer_is_win (w l : Option Nat) : Bool :=
  (optTruthy w && optTruthy l && optGT w l) || (optTruthy w && !optTruthy l)

/-- Embedding of
`newer_is_lin = (l_time and w_time and l_time > w_time) or (l_time and not w_time)`
(src/main.py line 186). -/
def newer_is_lin (w l : Option Nat) : Bool :=
  (optTruthy l && optTruthy w && optGT l w) || (optTruthy l && !optTruthy w)

/-! ### The timestamp inspector `latest_mtime` (src/main.py lines 93-111)

A filesystem entry is modelled together with the outcome each `stat` call
would have on it: either the entry's modification time, or the exception the
call raises.  Directories carry the entries `rglob("*")` yields beneath them,
in traversal order. -/

/-- The exception a `stat` call can raise: `FileNotFoundError` (the entry
vanished between listing and stat) or any other `Exception`. -/
inductive FsErr
  | fileNotFound
  | other
deriving DecidableEq

/-- A filesystem entry as seen by `latest_mtime`: a file or a directory, each
carrying the outcome of `stat` on it. -/
inductive Entry
  | file (st : Except FsErr Nat)
  | dir (st : Except FsErr Nat) (children : List Entry)

mutual

/-- The `stat` outcomes of an entry and of everything below it, entry first
(the order `rglob` traverses them). -/
def entryStats : Entry → List (Except FsErr Nat)
  | .file st => [st]
  | .dir st cs => st :: listStats cs

/-- The `stat` outcomes of a list of entries and everything below them. -/
def listStats : List Entry → List (Except FsErr Nat)
  | [] => []
  | e :: es => entryStats e ++ listStats es

end

/-- Whether a `stat` outcome is a success. -/
def stOk : Except FsErr Nat → Bool
  | .ok _ => true
  | .error _ => false

/-- The modification times among a list of `stat` outcomes (failed calls
contribute nothing). -/
def okVals : List (Except FsErr Nat) → List Nat
  | [] => []
  | .ok t :: rest => t :: okVals rest
  | .error _ :: rest => okVals rest

/-- Whether some `stat` outcome in the list is an error other than
`FileNotFoundError`. -/
def hasOtherErr : List (Except FsErr Nat) → Bool
  | [] => false
  | .error .other :: _ => true
  | _ :: rest => hasOtherErr rest

/-- The `for p in path.rglob("*")` loop of `latest_mtime` (lines 102-108):
a running maximum `newest`, a per-entry `FileNotFoundError` skipped by the
inner handler, and any other per-entry error propagating to the
function-level handler, which turns the whole result into `none`. -/
def scanLoop (newest : Nat) : List (Except FsErr Nat) → Option Nat
  | [] => some newest
  | .ok t :: rest => scanLoop (if newest < t then t else newest) rest
  | .error .fileNotFound :: rest => scanLoop newest rest
  | .error .other :: _ => none

/-- Embedding of `latest_mtime` (src/main.py lines 93-111).  The input `none`
models a nonexistent path (`path.exists()` false).  A failing `stat` on the
path itself - file or directory - is caught only by the function-level
`except Exception` handler, hence yields `none`. -/
def latest_mtime : Option Entry → Option Nat
  | none => none
  | some (.file st) =>
    match st with
    | .ok m => some m
    | .error _ => none
  | some (.dir st cs) =>
    match st with
    | .ok m => scanLoop m (listStats cs)
    | .error _ => none

/-- The `stat` outcome of the top-level entry itself. -/
def rootStat : Entry → Except FsErr Nat
  | .file st => st
  | .dir st _ => st

/-- Whether the top-level path is present and its own `stat` succeeds. -/
def topAccessible : Option Entry → Bool
  | none => false
  | some e => stOk (rootStat e)

/-- The running maximum the scan loop computes over a list of timestamps,
seeded with the directory's own modification time. -/
def runMax (m : Nat) (ts : List Nat) : Nat :=
  ts.foldl (fun a t => if a < t then t else a) m

theorem runMax_ge (ts : List Nat) : ∀ m : Nat, m ≤ runMax m ts := by
  induction ts with
  | nil => intro m; simp [runMax]
  | cons t ts ih =>
    intro m
    have h := ih (if m < t then t else m)
    simp only [runMax, List.foldl_cons] at h ⊢
    by_cases hmt : m < t
    · simp only [if_pos hmt] at h ⊢; omega
    · simp only [if_neg hmt] at h ⊢; omega

theorem runMax_mem (ts : List Nat) : ∀ m : Nat, runMax m ts = m ∨ runMax m ts ∈ ts := by
  induction ts with
  | nil => intro m; simp [runMax]
  | cons t ts ih =>
    intro m
    have h := ih (if m < t then t else m)
    simp only [runMax, List.foldl_cons] at h ⊢
    rcases h with h | h
    · rw [h]
      split
      · exact Or.inr (List.mem_cons_self t ts)
      · exact Or.inl rfl
    · exact Or.inr (List.mem_cons_of_mem t h)

theorem runMax_ub (ts : List Nat) : ∀ m : Nat, ∀ x ∈ ts, x ≤ runMax m ts := by
  induction ts with
  | nil => intro m x hx; simp at hx
  | cons t ts ih =>
    intro m x hx
    simp only [runMax, List.foldl_cons]
    rcases List.mem_cons.mp hx with rfl | hx
    · have h := runMax_ge ts (if m < x then x else m)
      simp only [runMax] at h
      by_cases hmx : m < x
      · simp only [if_pos hmx] at h ⊢; omega
      · simp only [if_neg hmx] at h ⊢; omega
    · exact ih (if m < t then t else m) x hx

theorem scanLoop_none_iff (ts : List (Except FsErr Nat)) :
    ∀ m : Nat, scanLoop m ts = none ↔ hasOtherErr ts = true := by
  induction ts with
  | nil => intro m; simp [scanLoop, hasOtherErr]
  | cons s ts ih =>
    intro m
    match s with
    | .ok t => simpa [scanLoop, hasOtherErr] using ih _
    | .error .fileNotFound => simpa [scanLoop, hasOtherErr] using ih m
    | .error .other => simp [scanLoop, hasOtherErr]

theorem scanLoop_no_other (ts : List (Except FsErr Nat)) :
    ∀ m : Nat, hasOtherErr ts = false → scanLoop m ts = some (runMax m (okVals ts)) := by
  induction ts with
  | nil => intro m _; simp [scanLoop, okVals, runMax]
  | cons s ts ih =>
    intro m h
    match s with
    | .ok t =>
      simp only [hasOtherErr] at h
      simp only [scanLoop, okVals, runMax, List.foldl_cons]
      exact ih _ h
    | .error .fileNotFound =>
      simp only [hasOtherErr] at h
      simp only [scanLoop, okVals]
      exact ih m h
    | .error .other => simp [hasOtherErr] at h

theorem all_stOk_no_other (ts : List (Except FsErr Nat)) :
    ts.all stOk = true → hasOtherErr ts = false := by
  induction ts with
  | nil => intro _; simp [hasOtherErr]
  | cons s ts ih =>
    intro h
    simp only [List.all_cons, Bool.and_eq_true] at h
    match s with
    | .ok t => simpa [hasOtherErr] using ih h.2
    | .error e => simp [stOk] at h

/-- Claim C5: `latest_mtime` returns `none` for a nonexistent path; for a file,
the file's own modification time; for a directory (on an error-free scan), the
maximum modification time over the directory itself and every entry reachable
by full recursive descent; in particular an empty directory yields its own
mtime, and a directory of files with mtimes T1 < T2 < T3 (none older than the
directory entry itself) yields T3. -/
theorem latest_mtime_spec :
    (latest_mtime none = none) ∧
    (∀ m : Nat, latest_mtime (some (.file (.ok m))) = some m) ∧
    (∀ (m : Nat) (cs : List Entry), (listStats cs).all stOk = true →
      ∃ r, latest_mtime (some (.dir (.ok m) cs)) = some r ∧
        (r = m ∨ r ∈ okVals (listStats cs)) ∧ m ≤ r ∧
        ∀ t ∈ okVals (listStats cs), t ≤ r) ∧
    (∀ m : Nat, latest_mtime (some (.dir (.ok m) [])) = some m) ∧
    (∀ m t1 t2 t3 : Nat, t1 < t2 → t2 < t3 → m ≤ t3 →
      latest_mtime (some (.dir (.ok m)
        [.file (.ok t1), .file (.ok t2), .file (.ok t3)])) = some t3) := by
  refine ⟨rfl, fun m => rfl, ?_, fun m => rfl, ?_⟩
  · intro m cs hall
    have hno := all_stOk_no_other _ hall
    refine ⟨runMax m (okVals (listStats cs)), ?_, ?_, ?_, ?_⟩
    · simpa [latest_mtime] using scanLoop_no_other _ m hno
    · exact runMax_mem _ m
    · exact runMax_ge _ m
    · exact runMax_ub _ m
  · intro m t1 t2 t3 h12 h23 hm3
    simp only [latest_mtime, listStats, entryStats, List.nil_append, List.cons_append,
      scanLoop, Option.some.injEq]
    split_ifs <;> omega

/-- Claim C5 witness: concrete runs of `latest_mtime` through
`latest_mtime_spec`. -/
theorem latest_mtime_spec_witness :
    latest_mtime (some (.dir (.ok 5) [.file (.ok 9)])) = some 9 ∧
    latest_mtime (some (.dir (.ok 0) [.file (.ok 1), .file (.ok 2), .file (.ok 3)])) = some 3 := by
  constructor
  · obtain ⟨r, hr, hmem, hge, hub⟩ := latest_mtime_spec.2.2.1 5 [Entry.file (.ok 9)] (by decide)
    have h9 : (9 : Nat) ≤ r := hub 9 (by simp [listStats, entryStats, okVals])
    have hr9 : r = 9 := by
      rcases hmem with h | h
      · omega
      · simp [listStats, entryStats, okVals] at h; omega
    rw [hr9] at hr
    exact hr
  · exact latest_mtime_spec.2.2.2.2 0 1 2 3 (by decide) (by decide) (by decide)

/-- Claim C6 counterexample: scanning a directory whose own `stat` succeeds
(top-level path present and accessible) but which contains an entry whose
`stat` fails with an error other than `FileNotFoundError` yields `none` — the
entry is not merely skipped, so the result is `none` even though the top-level
path is accessible. -/
theorem latest_mtime_none_top_accessible :
    latest_mtime (some (.dir (.ok 5) [.file (.error .other)])) = none ∧
    topAccessible (some (.dir (.ok 5) [.file (.error .other)])) = true := by
  decide

/-- Claim C6 (amended): `latest_mtime` never propagates an exception (in the
embedding it is a total function into `Option`); a per-entry
`FileNotFoundError` causes only that entry to be skipped, but any other error
— whether on the top-level path or on a scanned entry — degrades the whole
result to `none`: the result is `none` exactly when the path is missing, its
own `stat` fails, or some scanned entry fails with an error other than
`FileNotFoundError`. -/
theorem latest_mtime_error_policy :
    (latest_mtime none = none) ∧
    (∀ e, latest_mtime (some (.file (.error e))) = none) ∧
    (∀ (st : Except FsErr Nat) (cs : List Entry),
      latest_mtime (some (.dir st cs)) = none ↔
        (stOk st = false ∨ hasOtherErr (listStats cs) = true)) ∧
    (∀ (m : Nat) (cs : List Entry), hasOtherErr (listStats cs) = false →
      latest_mtime (some (.dir (.ok m) cs)) = some (runMax m (okVals (listStats cs)))) := by
  refine ⟨rfl, fun e => rfl, ?_, ?_⟩
  · intro st cs
    match st with
    | .ok m => simpa [latest_mtime, stOk] using scanLoop_none_iff (listStats cs) m
    | .error e => simp [latest_mtime, stOk]
  · intro m cs h
    simpa [latest_mtime] using scanLoop_no_other _ m h

/-- Claim C6 witness: a vanished entry (`FileNotFoundError`) is skipped and
the remaining maximum is returned. -/
theorem latest_mtime_error_policy_witness :
    latest_mtime (some (.dir (.ok 5) [.file (.error .fileNotFound), .file (.ok 9)])) = some 9 := by
  have h := latest_mtime_error_policy.2.2.2 5
    [Entry.file (.error .fileNotFound), Entry.file (.ok 9)] (by decide)
  exact h.trans (by decide)

/-- Claim C8: in the newest-side display labeling, side A is labeled newest
iff both timestamps exist and A's is strictly greater, or A's exists and B's
is absent; with equal timestamps or both absent, neither side is labeled
newest. -/
theorem newest_label_spec :
    (∀ w l : Option Nat,
      (newer_is_win w l = true ↔
        (∃ x y, w = some x ∧ l = some y ∧ y < x) ∨ (w.isSome = true ∧ l = none)) ∧
      (newer_is_lin w l = true ↔
        (∃ x y, l = some x ∧ w = some y ∧ y < x) ∨ (l.isSome = true ∧ w = none))) ∧
    (∀ t : Option Nat, newer_is_win t t = false ∧ newer_is_lin t t = false) := by
  constructor
  · intro w l
    cases w <;> cases l <;>
      simp [newer_is_win, newer_is_lin, optTruthy, optGT]
  · intro t
    cases t <;> simp [newer_is_win, newer_is_lin, optTruthy, optGT]

/-! ### The definition parser `parse_definition` (src/main.py lines 34-60)

A Python string is embedded as a `List Char`; `parse_definition` receives the
list of lines `read_text().splitlines()` produces. -/

/-- A Python string. -/
abbrev Str := List Char

/-- Python `str.strip()`: leading and trailing whitespace removed. -/
def pyStrip (l : Str) : Str :=
  ((l.dropWhile Char.isWhitespace).reverse.dropWhile Char.isWhitespace).reverse

/-- Python `str.upper()`. -/
def pyUpper (l : Str) : Str := l.map Char.toUpper

/-- Python `str.lower()`. -/
def pyLower (l : Str) : Str := l.map Char.toLower

/-- The section-name set `{"WINDOWS", "LINUX"}` of `parse_definition`. -/
def sectionNames : List Str := ["WINDOWS".toList, "LINUX".toList]

/-- The sub-key set `{"windows", "linux"}` of `parse_definition`. -/
def keyNames : List Str := ["windows".toList, "linux".toList]

/-- Python `line.split(":", 1)`: the text before the first `:` and the text
after it (the whole line and empty rest when no `:` occurs, a case the source
only reaches behind the `":" in line` guard). -/
def splitColon : Str → Str × Str
  | [] => ([], [])
  | c :: cs =>
    if c = ':' then ([], cs)
    else
      let p := splitColon cs
      (c :: p.1, p.2)

/-- One section of a parsed definition: the values stored so far under the
sub-keys `windows` and `linux` (the only keys `parse_definition` ever
stores). -/
structure SectionData where
  windows : Option Str
  linux : Option Str
deriving DecidableEq

/-- A parsed definition: the `WINDOWS` and `LINUX` sections. -/
structure DefData where
  WINDOWS : SectionData
  LINUX : SectionData
deriving DecidableEq

/-- The initial `data = {s: {} for s in sections}`. -/
def emptyDef : DefData := ⟨⟨none, none⟩, ⟨none, none⟩⟩

/-- `data[current][key] = val` on one section; the catch-all branch is
unreachable behind the key validation. -/
def setKey (s : SectionData) (k v : Str) : SectionData :=
  if k = "windows".toList then { s with windows := some v }
  else if k = "linux".toList then { s with linux := some v }
  else s

/-- `data[current][key] = val`. -/
def setSec (d : DefData) (sec k v : Str) : DefData :=
  if sec = "WINDOWS".toList then { d with WINDOWS := setKey d.WINDOWS k v }
  else { d with LINUX := setKey d.LINUX k v }

/-- Line classifier: the stripped line is empty. -/
def isBlank (raw : Str) : Prop := pyStrip raw = []

/-- Line classifier: the uppercased stripped line is a known section name. -/
def isHeader (raw : Str) : Prop := pyUpper (pyStrip raw) ∈ sectionNames

/-- Line classifier: the stripped line contains a `:` separator. -/
def hasColon (raw : Str) : Prop := ':' ∈ pyStrip raw

/-- The sub-key of a key line: text before the first `:`, stripped and
lowercased. -/
def keyOf (raw : Str) : Str := pyLower (pyStrip (splitColon (pyStrip raw)).1)

/-- The value of a key line: text after the first `:`, stripped. -/
def valOf (raw : Str) : Str := pyStrip (splitColon (pyStrip raw)).2

/-- The sub-key of a key line is one of `windows`/`linux`. -/
def goodKey (raw : Str) : Prop := keyOf raw ∈ keyNames

instance (raw : Str) : Decidable (isBlank raw) :=
  inferInstanceAs (Decidable (pyStrip raw = []))

instance (raw : Str) : Decidable (isHeader raw) :=
  inferInstanceAs (Decidable (pyUpper (pyStrip raw) ∈ sectionNames))

instance (raw : Str) : Decidable (hasColon raw) :=
  inferInstanceAs (Decidable (':' ∈ pyStrip raw))

instance (raw : Str) : Decidable (goodKey raw) :=
  inferInstanceAs (Decidable (keyOf raw ∈ keyNames))

/-- The body of the `for raw in ...splitlines()` loop of `parse_definition`
(lines 39-53): state is the current section (`None` before any header) and
the data collected so far. -/
def scanLine (st : Option Str × DefData) (raw : Str) : Except String (Option Str × DefData) :=
  if isBlank raw then .ok st
  else if isHeader raw then .ok (some (pyUpper (pyStrip raw)), st.2)
  else
    match st.1 with
    | none => .error "malformed line"
    | some cur =>
      if hasColon raw then
        if goodKey raw then .ok (some cur, setSec st.2 cur (keyOf raw) (valOf raw))
        else .error "unknown sub-key"
      else .error "malformed line"

/-- The whole scanning loop: aborts at the first raised `DefinitionError`. -/
def scanLines : Option Str × DefData → List Str → Except String (Option Str × DefData)
  | st, [] => .ok st
  | st, raw :: rest =>
    match scanLine st raw with
    | .error e => .error e
    | .ok st' => scanLines st' rest

/-- `set(data[s]) == keys`: since only the keys `windows`/`linux` can ever be
stored, this is exactly both fields being present. -/
def secFull (s : SectionData) : Bool := s.windows.isSome && s.linux.isSome

/-- Embedding of `parse_definition` (src/main.py lines 34-60), over the list
of lines of the definition text. -/
def parse_definition (lines : List Str) : Except String DefData :=
  match scanLines (none, emptyDef) lines with
  | .error e => .error e
  | .ok st =>
    if secFull st.2.WINDOWS && secFull st.2.LINUX then .ok st.2
    else .error "section must contain both keys"

/-! Spec-side description of when parsing fails, written from the
specification's words (§4.1): a non-empty, non-section line outside any
section or without a `:`; a sub-key other than `windows`/`linux`; or, after
the scan, a section lacking the exact key set `{windows, linux}`. -/

/-- Spec: a non-empty line that is not a section header appears before any
section header, or contains no `:` separator. -/
def specBadLine (lines : List Str) : Prop :=
  ∃ pre l post, lines = pre ++ l :: post ∧ ¬ isBlank l ∧ ¬ isHeader l ∧
    ((∀ x ∈ pre, ¬ isHeader x) ∨ ¬ hasColon l)

/-- Spec: a key other than `windows`/`linux` (case-insensitive after
trimming) appears on a key line. -/
def specBadKey (lines : List Str) : Prop :=
  ∃ pre l post, lines = pre ++ l :: post ∧ ¬ isBlank l ∧ ¬ isHeader l ∧
    hasColon l ∧ ¬ goodKey l

/-- The spec's line-oriented scan (§4.1) as a total fold: blank lines are
skipped, a section name switches the current section, and a valid key line in
a section stores its value; offending lines contribute nothing (on inputs
where none occur this agrees with the aborting scan of the source). -/
def collectLine (st : Option Str × DefData) (raw : Str) : Option Str × DefData :=
  if isBlank raw then st
  else if isHeader raw then (some (pyUpper (pyStrip raw)), st.2)
  else
    match st.1 with
    | none => st
    | some cur =>
      if hasColon raw ∧ goodKey raw then (some cur, setSec st.2 cur (keyOf raw) (valOf raw))
      else st

/-- The data the spec's scan assembles from a definition text. -/
def collectData (lines : List Str) : DefData :=
  (lines.foldl collectLine (none, emptyDef)).2

/-- Spec: after scanning all lines, the WINDOWS or the LINUX section does not
contain exactly the key set `{windows, linux}`. -/
def specIncomplete (lines : List Str) : Prop :=
  ¬ (secFull (collectData lines).WINDOWS = true ∧ secFull (collectData lines).LINUX = true)

/-- Spec: the disjunction of the three `DefinitionError` conditions. -/
def specParseFails (lines : List Str) : Prop :=
  specBadLine lines ∨ specBadKey lines ∨ specIncomplete lines

/-- `specBadLine` generalized over the running scan state: `c` records
whether the current section is still unset at the start of the lines. -/
def badFrom (c : Bool) (lines : List Str) : Prop :=
  ∃ pre l post, lines = pre ++ l :: post ∧ ¬ isBlank l ∧ ¬ isHeader l ∧
    ((c = true ∧ ∀ x ∈ pre, ¬ isHeader x) ∨ ¬ hasColon l)

theorem specBadLine_iff (lines : List Str) : specBadLine lines ↔ badFrom true lines := by
  unfold specBadLine badFrom
  constructor <;> rintro ⟨pre, l, post, heq, h1, h2, h3⟩ <;>
    exact ⟨pre, l, post, heq, h1, h2, by tauto⟩

theorem badFrom_nil (c : Bool) : ¬ badFrom c [] := by
  rintro ⟨pre, l, post, heq, -⟩
  cases pre <;> simp at heq

theorem specBadKey_nil : ¬ specBadKey [] := by
  rintro ⟨pre, l, post, heq, -⟩
  cases pre <;> simp at heq

theorem not_isHeader_of_isBlank {raw : Str} (h : isBlank raw) : ¬ isHeader raw := by
  intro hh
  unfold isHeader at hh
  rw [h] at hh
  exact absurd hh (by decide)

theorem badFrom_cons_nonheader {c : Bool} {raw : Str} {rest : List Str} (hh : ¬ isHeader raw) :
    badFrom c (raw :: rest) ↔
      ((¬ isBlank raw ∧ (c = true ∨ ¬ hasColon raw)) ∨ badFrom c rest) := by
  constructor
  · rintro ⟨pre, l, post, heq, hbl, hhd, hcond⟩
    cases pre with
    | nil =>
      simp only [List.nil_append, List.cons.injEq] at heq
      obtain ⟨rfl, rfl⟩ := heq
      left
      refine ⟨hbl, ?_⟩
      rcases hcond with ⟨hc, -⟩ | hc
      · exact Or.inl hc
      · exact Or.inr hc
    | cons p pre' =>
      simp only [List.cons_append, List.cons.injEq] at heq
      obtain ⟨rfl, heq2⟩ := heq
      right
      refine ⟨pre', l, post, heq2, hbl, hhd, ?_⟩
      rcases hcond with ⟨hc, hall⟩ | hc
      · exact Or.inl ⟨hc, fun x hx => hall x (List.mem_cons_of_mem _ hx)⟩
      · exact Or.inr hc
  · rintro (⟨hbl, hc⟩ | ⟨pre, l, post, heq, hbl, hhd, hcond⟩)
    · refine ⟨[], raw, rest, rfl, hbl, hh, ?_⟩
      rcases hc with hc | hc
      · exact Or.inl ⟨hc, by simp⟩
      · exact Or.inr hc
    · refine ⟨raw :: pre, l, post, by rw [heq, List.cons_append], hbl, hhd, ?_⟩
      rcases hcond with ⟨hc, hall⟩ | hc
      · refine Or.inl ⟨hc, ?_⟩
        intro x hx
        rcases List.mem_cons.mp hx with rfl | hx
        · exact hh
        · exact hall x hx
      · exact Or.inr hc

theorem badFrom_cons_header {c : Bool} {raw : Str} {rest : List Str} (hh : isHeader raw) :
    badFrom c (raw :: rest) ↔ badFrom false rest := by
  constructor
  · rintro ⟨pre, l, post, heq, hbl, hhd, hcond⟩
    cases pre with
    | nil =>
      simp only [List.nil_append, List.cons.injEq] at heq
      obtain ⟨rfl, rfl⟩ := heq
      exact absurd hh hhd
    | cons p pre' =>
      simp only [List.cons_append, List.cons.injEq] at heq
      obtain ⟨rfl, heq2⟩ := heq
      refine ⟨pre', l, post, heq2, hbl, hhd, ?_⟩
      rcases hcond with ⟨hc, hall⟩ | hc
      · exact absurd hh (hall raw (List.mem_cons_self _ _))
      · exact Or.inr hc
  · rintro ⟨pre, l, post, heq, hbl, hhd, hcond⟩
    refine ⟨raw :: pre, l, post, by rw [heq, List.cons_append], hbl, hhd, ?_⟩
    rcases hcond with ⟨hc, -⟩ | hc
    · exact absurd hc (by simp)
    · exact Or.inr hc

theorem specBadKey_cons {raw : Str} {rest : List Str} :
    specBadKey (raw :: rest) ↔
      ((¬ isBlank raw ∧ ¬ isHeader raw ∧ hasColon raw ∧ ¬ goodKey raw) ∨ specBadKey rest) := by
  constructor
  · rintro ⟨pre, l, post, heq, h1, h2, h3, h4⟩
    cases pre with
    | nil =>
      simp only [List.nil_append, List.cons.injEq] at heq
      obtain ⟨rfl, rfl⟩ := heq
      exact Or.inl ⟨h1, h2, h3, h4⟩
    | cons p pre' =>
      simp only [List.cons_append, List.cons.injEq] at heq
      obtain ⟨rfl, heq2⟩ := heq
      exact Or.inr ⟨pre', l, post, heq2, h1, h2, h3, h4⟩
  · rintro (⟨h1, h2, h3, h4⟩ | ⟨pre, l, post, heq, h1, h2, h3, h4⟩)
    · exact ⟨[], raw, rest, rfl, h1, h2, h3, h4⟩
    · exact ⟨raw :: pre, l, post, by rw [heq, List.cons_append], h1, h2, h3, h4⟩

/-- The aborting scan raises a `DefinitionError` exactly when a bad line or a
bad key occurs, relative to the scan state it starts from. -/
theorem scanLines_error_iff :
    ∀ (lines : List Str) (cur : Option Str) (d : DefData),
      (∃ e, scanLines (cur, d) lines = .error e) ↔
        (badFrom cur.isNone lines ∨ specBadKey lines) := by
  intro lines
  induction lines with
  | nil =>
    intro cur d
    simp [scanLines, badFrom_nil, specBadKey_nil]
  | cons raw rest ih =>
    intro cur d
    by_cases hb : isBlank raw
    · have hnh := not_isHeader_of_isBlank hb
      have hstep : scanLines (cur, d) (raw :: rest) = scanLines (cur, d) rest := by
        simp [scanLines, scanLine, hb]
      rw [hstep, ih cur d, badFrom_cons_nonheader hnh, specBadKey_cons]
      simp [hb]
    by_cases hh : isHeader raw
    · have hstep : scanLines (cur, d) (raw :: rest) =
          scanLines (some (pyUpper (pyStrip raw)), d) rest := by
        simp [scanLines, scanLine, hb, hh]
      rw [hstep, ih (some (pyUpper (pyStrip raw))) d, Option.isNone_some,
        badFrom_cons_header hh, specBadKey_cons]
      simp [hh]
    cases cur with
    | none =>
      have hstep : scanLines ((none : Option Str), d) (raw :: rest) = .error "malformed line" := by
        simp [scanLines, scanLine, hb, hh]
      rw [hstep]
      apply iff_of_true ⟨_, rfl⟩
      exact Or.inl ((badFrom_cons_nonheader hh).mpr (Or.inl ⟨hb, Or.inl Option.isNone_none⟩))
    | some s =>
      by_cases hcol : hasColon raw
      · by_cases hgood : goodKey raw
        · have hstep : scanLines (some s, d) (raw :: rest) =
              scanLines (some s, setSec d s (keyOf raw) (valOf raw)) rest := by
            simp [scanLines, scanLine, hb, hh, hcol, hgood]
          rw [hstep, ih (some s) (setSec d s (keyOf raw) (valOf raw)), Option.isNone_some,
            badFrom_cons_nonheader hh, specBadKey_cons]
          simp [hcol, hgood]
        · have hstep : scanLines (some s, d) (raw :: rest) = .error "unknown sub-key" := by
            simp [scanLines, scanLine, hb, hh, hcol, hgood]
          rw [hstep]
          apply iff_of_true ⟨_, rfl⟩
          exact Or.inr (specBadKey_cons.mpr (Or.inl ⟨hb, hh, hcol, hgood⟩))
      · have hstep : scanLines (some s, d) (raw :: rest) = .error "malformed line" := by
          simp [scanLines, scanLine, hb, hh, hcol]
        rw [hstep]
        apply iff_of_true ⟨_, rfl⟩
        exact Or.inl ((badFrom_cons_nonheader hh).mpr (Or.inl ⟨hb, Or.inr hcol⟩))

/-- When the aborting scan succeeds it computes exactly the spec's fold. -/
theorem scanLines_ok_collect :
    ∀ (lines : List Str) (st st' : Option Str × DefData),
      scanLines st lines = .ok st' → st' = lines.foldl collectLine st := by
  intro lines
  induction lines with
  | nil =>
    intro st st' h
    simp only [scanLines, Except.ok.injEq] at h
    simpa [List.foldl_nil] using h.symm
  | cons raw rest ih =>
    intro st st' h
    simp only [List.foldl_cons]
    by_cases hb : isBlank raw
    · have hstep : scanLines st (raw :: rest) = scanLines st rest := by
        simp [scanLines, scanLine, hb]
      rw [hstep] at h
      have hcl : collectLine st raw = st := by simp [collectLine, hb]
      rw [hcl]
      exact ih st st' h
    by_cases hh : isHeader raw
    · have hstep : scanLines st (raw :: rest) =
          scanLines (some (pyUpper (pyStrip raw)), st.2) rest := by
        simp [scanLines, scanLine, hb, hh]
      rw [hstep] at h
      have hcl : collectLine st raw = (some (pyUpper (pyStrip raw)), st.2) := by
        simp [collectLine, hb, hh]
      rw [hcl]
      exact ih _ st' h
    cases hcur : st.1 with
    | none =>
      have hstep : scanLines st (raw :: rest) = .error "malformed line" := by
        simp [scanLines, scanLine, hb, hh, hcur]
      rw [hstep] at h
      exact absurd h (by simp)
    | some s =>
      by_cases hcol : hasColon raw
      · by_cases hgood : goodKey raw
        · have hstep : scanLines st (raw :: rest) =
              scanLines (some s, setSec st.2 s (keyOf raw) (valOf raw)) rest := by
            simp [scanLines, scanLine, hb, hh, hcur, hcol, hgood]
          rw [hstep] at h
          have hcl : collectLine st raw = (some s, setSec st.2 s (keyOf raw) (valOf raw)) := by
            simp [collectLine, hb, hh, hcur, hcol, hgood]
          rw [hcl]
          exact ih _ st' h
        · have hstep : scanLines st (raw :: rest) = .error "unknown sub-key" := by
            simp [scanLines, scanLine, hb, hh, hcur, hcol, hgood]
          rw [hstep] at h
          exact absurd h (by simp)
      · have hstep : scanLines st (raw :: rest) = .error "malformed line" := by
          simp [scanLines, scanLine, hb, hh, hcur, hcol]
        rw [hstep] at h
        exact absurd h (by simp)

/-- Claim C1: `parse_definition` raises `DefinitionError` exactly when a
non-empty non-section line appears before any section header or lacks a `:`;
or a sub-key other than `windows`/`linux` appears on a key line; or, after
scanning all lines, a section does not contain exactly the key set
`{windows, linux}`.  Whenever it succeeds, the result holds exactly two
sections with both path strings each. -/
theorem parse_definition_spec :
    ∀ lines : List Str,
      ((∃ e, parse_definition lines = .error e) ↔ specParseFails lines) ∧
      (∀ d, parse_definition lines = .ok d →
        secFull d.WINDOWS = true ∧ secFull d.LINUX = true) := by
  intro lines
  have hscan := scanLines_error_iff lines none emptyDef
  rw [Option.isNone_none] at hscan
  cases hres : scanLines (none, emptyDef) lines with
  | error e =>
    have hfail : badFrom true lines ∨ specBadKey lines := hscan.mp ⟨e, hres⟩
    simp only [parse_definition, hres]
    constructor
    · apply iff_of_true ⟨e, rfl⟩
      rcases hfail with hbl | hbk
      · exact Or.inl ((specBadLine_iff lines).mpr hbl)
      · exact Or.inr (Or.inl hbk)
    · intro d hd
      exact absurd hd (by simp)
  | ok st =>
    have hnofail : ¬ (badFrom true lines ∨ specBadKey lines) := by
      intro hcontra
      obtain ⟨e, he⟩ := hscan.mpr hcontra
      rw [hres] at he
      exact absurd he (by simp)
    have hcollect : st = lines.foldl collectLine (none, emptyDef) :=
      scanLines_ok_collect lines _ st hres
    have hdata : st.2 = collectData lines := by rw [collectData, hcollect]
    simp only [parse_definition, hres]
    by_cases hfull : (secFull st.2.WINDOWS && secFull st.2.LINUX) = true
    · rw [if_pos hfull]
      rw [Bool.and_eq_true] at hfull
      constructor
      · apply iff_of_false (by simp)
        rintro (hbl | hbk | hinc)
        · exact hnofail (Or.inl ((specBadLine_iff lines).mp hbl))
        · exact hnofail (Or.inr hbk)
        · exact hinc ⟨by rw [← hdata]; exact hfull.1, by rw [← hdata]; exact hfull.2⟩
      · intro d hd
        have hd' : st.2 = d := by injection hd
        rw [← hd']
        exact hfull
    · rw [if_neg hfull]
      constructor
      · apply iff_of_true ⟨_, rfl⟩
        right; right
        intro ⟨h1, h2⟩
        rw [← hdata] at h1 h2
        exact hfull (by simp [h1, h2])
      · intro d hd
        exact absurd hd (by simp)

/-- A well-formed demo definition text. -/
def demoLines : List Str :=
  ["WINDOWS".toList, "windows: a".toList, "linux: b".toList,
   "LINUX".toList, "windows: c".toList, "linux: d".toList]

/-- Claim C1 witness: parsing the demo text succeeds with both sections
holding both keys. -/
theorem parse_definition_spec_witness :
    secFull (DefData.mk ⟨some "a".toList, some "b".toList⟩
      ⟨some "c".toList, some "d".toList⟩).WINDOWS = true ∧
    secFull (DefData.mk ⟨some "a".toList, some "b".toList⟩
      ⟨some "c".toList, some "d".toList⟩).LINUX = true :=
  (parse_definition_spec demoLines).2
    (DefData.mk ⟨some "a".toList, some "b".toList⟩ ⟨some "c".toList, some "d".toList⟩)
    (by decide)

/-! ### The model filesystem, `backup`, `copy` and `perform`
(src/main.py lines 75-91 and 123-151)

The filesystem is a finite map from paths (component lists) to nodes (files
with contents, or directories), represented as an association list in which
the first matching entry wins.  `shutil.move` of a whole entry is a rename
(its destination-is-a-directory case moves the source inside the
directory), `shutil.copytree(..., dirs_exist_ok=True)` overlays the source
subtree onto the destination, and `mkdir(parents=True, exist_ok=True)`
creates every missing ancestor. -/

/-- A filesystem path, as its list of components. -/
abbrev FsPath := List Str

/-- A filesystem node: a file with its byte contents, or a directory. -/
inductive Node
  | file (content : List Nat)
  | dir
deriving DecidableEq

/-- The model filesystem. -/
abbrev FS := List (FsPath × Node)

/-- The node at a path, if the path exists (first matching entry wins). -/
def fsLookup : FS → FsPath → Option Node
  | [], _ => none
  | (q, n) :: rest, p => if q = p then some n else fsLookup rest p

/-- `pathUnder root p`: `p` is `root` itself or lies below it. -/
def pathUnder : FsPath → FsPath → Bool
  | [], _ => true
  | _ :: _, [] => false
  | r :: rs, x :: xs => r = x && pathUnder rs xs

/-- Relocation of one path from below `src` to below `d`. -/
def rebasePath (src d p : FsPath) : FsPath := d ++ p.drop src.length

/-- The entries below `src`, relocated to below `d`. -/
def underLayer (fs : FS) (src d : FsPath) : FS :=
  (fs.filter (fun e => pathUnder src e.1)).map (fun e => (rebasePath src d e.1, e.2))

/-- Rename of the whole entry at `src` (with everything below it) to `d`:
the relocated entries shadow anything previously at the destination. -/
def rebaseAll (fs : FS) (src d : FsPath) : FS :=
  underLayer fs src d ++ fs.filter (fun e => !pathUnder src e.1)

/-- `shutil.move(str(src), d)`: when `d` is an existing directory the source
is moved inside it under its own final component, otherwise the entry is
renamed to `d`. -/
def moveEntry (fs : FS) (src d : FsPath) : FS :=
  match fsLookup fs d with
  | some .dir => rebaseAll fs src (d ++ [src.getLastD []])
  | _ => rebaseAll fs src d

/-- The nonempty prefixes of a path, shortest first. -/
def pathPrefixes (p : FsPath) : List FsPath :=
  (List.range p.length).map (fun i => p.take (i + 1))

/-- `p.mkdir(parents=True, exist_ok=True)`: every missing nonempty prefix of
`p` becomes a directory, existing entries are left alone. -/
def mkdirParents (fs : FS) (p : FsPath) : FS :=
  (pathPrefixes p).foldl
    (fun acc q => if (fsLookup acc q).isSome then acc else (q, Node.dir) :: acc) fs

/-- The trash root `TRASH_DIR` (src/main.py line 25), as a distinguished root
path of the model filesystem. -/
def TRASH : FsPath := ["Trash".toList]

/-- Embedding of `backup` (src/main.py lines 75-82): a no-op when the target
does not exist; otherwise the trash directory `TRASH/stamp/game` is created
(with parents) and the target entry is moved into it under its final
component.  The timestamp tag `stamp` — `datetime.now().strftime
("%Y-%m-%d_%H-%M-%S")` in the source — is threaded as a parameter. -/
def backup (stamp : Str) (fs : FS) (dst : FsPath) (game : Str) : FS :=
  if (fsLookup fs dst).isSome then
    let dest : FsPath := TRASH ++ [stamp, game]
    let fs1 := mkdirParents fs dest
    moveEntry fs1 dst (dest ++ [dst.getLastD []])
  else fs

/-- Embedding of `copy` (src/main.py lines 85-90): a directory source is
`copytree`-overlaid onto the destination (whose missing ancestors
`os.makedirs` creates), a file source is copied after
`dst.parent.mkdir(parents=True, exist_ok=True)`.  A nonexistent source is
unreachable from `perform`, which checks `src.exists()` first. -/
def copy (fs : FS) (src dst : FsPath) : FS :=
  match fsLookup fs src with
  | some .dir =>
    let fs1 := mkdirParents fs dst
    underLayer fs1 src dst ++ fs1
  | some (.file c) =>
    let fs1 := mkdirParents fs dst.dropLast
    (dst, Node.file c) :: fs1
  | none => fs

/-- `Path(s)` on a path string of the definition file: the nonempty
slash-separated components. -/
def splitSlash : Str → List Str
  | [] => [[]]
  | c :: cs =>
    if c = '/' then [] :: splitSlash cs
    else
      match splitSlash cs with
      | [] => [[c]]
      | p :: ps => (c :: p) :: ps

/-- A path string, as a model path. -/
def strToPath (s : Str) : FsPath := (splitSlash s).filter (fun c => ¬ c = [])

/-- A parsed definition as `perform` consumes it: the four path strings
`defs[section][key]`. -/
structure GameDefs where
  WINDOWS_windows : Str
  WINDOWS_linux : Str
  LINUX_windows : Str
  LINUX_linux : Str
deriving DecidableEq

/-- `defs[sec][key]`, for the validated sections and keys the menu layer
supplies (spec §6). -/
def defsGet (d : GameDefs) (sec key : Str) : Str :=
  if sec = "WINDOWS".toList then
    (if key = "windows".toList then d.WINDOWS_windows else d.WINDOWS_linux)
  else
    (if key = "windows".toList then d.LINUX_windows else d.LINUX_linux)

/-- Lines 126-132 of `perform`: the section is the uppercased OS role, the
direction `windows→linux` selects the section's `windows` path as source and
its `linux` path as target, and any other direction string swaps them. -/
def resolvePaths (d : GameDefs) (current_os direction : Str) : FsPath × FsPath :=
  let sec := pyUpper current_os
  let ks : Str × Str :=
    if direction = "windows→linux".toList
    then ("windows".toList, "linux".toList)
    else ("linux".toList, "windows".toList)
  (strToPath (defsGet d sec ks.1), strToPath (defsGet d sec ks.2))

/-- What a run of `perform` reports. -/
inductive Outcome
  | aborted
  | copyFailed (msg : String)
  | success
deriving DecidableEq

/-- `perform` (src/main.py lines 123-151) with the backup and copy engines as
parameters, making the exception flow of the source explicit: the backup
engine may raise (`Except.error`), which `perform` does not catch; the copy
engine returns the filesystem state it leaves behind together with the error
it raises, if any — only that call sits inside the `try` block, whose
`except Exception` handler reports the failure and falls through. -/
def performGen
    (backupE : FS → FsPath → Str → Str → Except String FS)
    (copyE : FS → FsPath → FsPath → FS × Option String)
    (d : GameDefs) (current_os direction game stamp : Str) (fs : FS) :
    Except String (FS × Outcome) :=
  if (fsLookup fs (resolvePaths d current_os direction).1).isSome = false then .ok (fs, .aborted)
  else
    match backupE fs (resolvePaths d current_os direction).2 game stamp with
    | .error e => .error e
    | .ok fs1 =>
      match copyE fs1 (resolvePaths d current_os direction).1
          (resolvePaths d current_os direction).2 with
      | (fs2, none) => .ok (fs2, .success)
      | (fs2, some e) => .ok (fs2, .copyFailed e)

/-- The real backup engine: `backup`, which raises nothing in the model. -/
def realBackupE : FS → FsPath → Str → Str → Except String FS :=
  fun fs dst game stamp => .ok (backup stamp fs dst game)

/-- The real copy engine: `copy`, which raises nothing in the model. -/
def realCopyE : FS → FsPath → FsPath → FS × Option String :=
  fun fs src dst => (copy fs src dst, none)

/-- Embedding of `perform` with the source's own engines. -/
def perform (d : GameDefs) (current_os direction game stamp : Str) (fs : FS) :
    Except String (FS × Outcome) :=
  performGen realBackupE realCopyE d current_os direction game stamp fs

/-! Supporting lemmas about the model filesystem. -/

theorem pathUnder_iff (r : FsPath) : ∀ p : FsPath, pathUnder r p = true ↔ ∃ t, p = r ++ t := by
  induction r with
  | nil =>
    intro p
    simp [pathUnder]
  | cons a rs ih =>
    intro p
    cases p with
    | nil =>
      simp [pathUnder]
    | cons b ps =>
      constructor
      · intro h
        simp only [pathUnder, Bool.and_eq_true, decide_eq_true_eq] at h
        obtain ⟨rfl, h2⟩ := h
        obtain ⟨t, rfl⟩ := (ih ps).mp h2
        exact ⟨t, rfl⟩
      · rintro ⟨t, ht⟩
        simp only [List.cons_append, List.cons.injEq] at ht
        obtain ⟨rfl, rfl⟩ := ht
        simp only [pathUnder, Bool.and_eq_true, decide_eq_true_eq]
        exact ⟨by trivial, (ih _).mpr ⟨t, rfl⟩⟩

theorem pathUnder_self (p : FsPath) : pathUnder p p = true :=
  (pathUnder_iff p p).mpr ⟨[], by simp⟩

theorem pathUnder_app (r t : FsPath) : pathUnder r (r ++ t) = true :=
  (pathUnder_iff r (r ++ t)).mpr ⟨t, rfl⟩

theorem pathUnder_length {r p : FsPath} (h : pathUnder r p = true) : r.length ≤ p.length := by
  obtain ⟨t, rfl⟩ := (pathUnder_iff r p).mp h
  simp

theorem fsLookup_append (a b : FS) (p : FsPath) :
    fsLookup (a ++ b) p =
      if (fsLookup a p).isSome then fsLookup a p else fsLookup b p := by
  induction a with
  | nil => simp [fsLookup]
  | cons e a ih =>
    obtain ⟨q, n⟩ := e
    by_cases h : q = p
    · simp [fsLookup, h]
    · simp only [List.cons_append, fsLookup, if_neg h]
      exact ih

theorem underLayer_lookup_in (src d t : FsPath) :
    ∀ fs : FS, fsLookup (underLayer fs src d) (d ++ t) = fsLookup fs (src ++ t) := by
  intro fs
  induction fs with
  | nil => simp [underLayer, fsLookup]
  | cons e fs ih =>
    obtain ⟨p, n⟩ := e
    by_cases hp : pathUnder src p = true
    · obtain ⟨tp, rfl⟩ := (pathUnder_iff src p).mp hp
      have hu : underLayer ((src ++ tp, n) :: fs) src d =
          (d ++ tp, n) :: underLayer fs src d := by
        simp [underLayer, rebasePath, hp, List.drop_left]
      rw [hu]
      by_cases he : tp = t
      · subst he
        simp [fsLookup]
      · have h1 : ¬ (d ++ tp = d ++ t) := by
          intro hc
          exact he (List.append_cancel_left hc)
        have h2 : ¬ (src ++ tp = src ++ t) := by
          intro hc
          exact he (List.append_cancel_left hc)
        simp only [fsLookup, if_neg h1, if_neg h2]
        exact ih
    · have hu : underLayer ((p, n) :: fs) src d = underLayer fs src d := by
        simp [underLayer, hp]
      rw [hu]
      have h2 : ¬ (p = src ++ t) := by
        intro hc
        rw [hc] at hp
        exact hp (pathUnder_app src t)
      simp only [fsLookup, if_neg h2]
      exact ih

theorem underLayer_lookup_out (src d q : FsPath) (h : pathUnder d q = false) :
    ∀ fs : FS, fsLookup (underLayer fs src d) q = none := by
  intro fs
  induction fs with
  | nil => simp [underLayer, fsLookup]
  | cons e fs ih =>
    obtain ⟨p, n⟩ := e
    by_cases hp : pathUnder src p = true
    · have hu : underLayer ((p, n) :: fs) src d =
          (rebasePath src d p, n) :: underLayer fs src d := by
        simp [underLayer, hp]
      rw [hu]
      have hne : ¬ (rebasePath src d p = q) := by
        intro hc
        rw [← hc, rebasePath] at h
        exact absurd (pathUnder_app d (p.drop src.length)) (by rw [h]; simp)
      simp only [fsLookup, if_neg hne]
      exact ih
    · have hu : underLayer ((p, n) :: fs) src d = underLayer fs src d := by
        simp [underLayer, hp]
      rw [hu]
      exact ih

theorem fsLookup_filterNot (src q : FsPath) :
    ∀ fs : FS, fsLookup (fs.filter (fun e => !pathUnder src e.1)) q =
      if pathUnder src q = true then none else fsLookup fs q := by
  intro fs
  induction fs with
  | nil => simp [fsLookup]
  | cons e fs ih =>
    obtain ⟨p, n⟩ := e
    by_cases hp : pathUnder src p = true
    · have hf : ((p, n) :: fs).filter (fun e => !pathUnder src e.1) =
          fs.filter (fun e => !pathUnder src e.1) := by
        simp [List.filter_cons, hp]
      rw [hf, ih]
      by_cases hq : pathUnder src q = true
      · simp [hq]
      · have hne : ¬ (p = q) := by
          intro hc
          rw [hc] at hp
          exact absurd hp (by simp [hq])
        simp [hq, fsLookup, if_neg hne]
    · have hf : ((p, n) :: fs).filter (fun e => !pathUnder src e.1) =
          (p, n) :: fs.filter (fun e => !pathUnder src e.1) := by
        simp [List.filter_cons, hp]
      rw [hf]
      by_cases hpq : p = q
      · subst hpq
        simp [fsLookup, hp]
      · simp only [fsLookup, if_neg hpq]
        exact ih

theorem mem_pathPrefixes {q p : FsPath} :
    q ∈ pathPrefixes p ↔ (q ≠ [] ∧ pathUnder q p = true) := by
  constructor
  · intro h
    simp only [pathPrefixes, List.mem_map, List.mem_range] at h
    obtain ⟨i, hi, rfl⟩ := h
    constructor
    · intro hc
      have h0 : (p.take (i + 1)).length = 0 := by rw [hc]; rfl
      rw [List.length_take] at h0
      omega
    · exact (pathUnder_iff _ p).mpr ⟨p.drop (i + 1), (List.take_append_drop (i + 1) p).symm⟩
  · rintro ⟨hne, hu⟩
    obtain ⟨t, rfl⟩ := (pathUnder_iff q _).mp hu
    simp only [pathPrefixes, List.mem_map, List.mem_range]
    refine ⟨q.length - 1, ?_, ?_⟩
    · have : 1 ≤ q.length := by
        cases q with
        | nil => exact absurd rfl hne
        | cons _ _ => simp
      simp only [List.length_append]
      omega
    · have h1 : q.length - 1 + 1 = q.length := by
        cases q with
        | nil => exact absurd rfl hne
        | cons _ _ => simp
      rw [h1]
      exact List.take_left q t

theorem mkdirFold_preserve (qs : List FsPath) :
    ∀ (acc : FS) (p : FsPath), (fsLookup acc p).isSome = true →
      fsLookup (qs.foldl
        (fun acc q => if (fsLookup acc q).isSome then acc else (q, Node.dir) :: acc) acc) p
        = fsLookup acc p := by
  induction qs with
  | nil => intro acc p _; simp
  | cons q qs ih =>
    intro acc p h
    simp only [List.foldl_cons]
    by_cases hq : (fsLookup acc q).isSome = true
    · rw [if_pos hq]
      exact ih acc p h
    · rw [if_neg hq]
      have hne : ¬ (q = p) := by
        intro hc
        rw [hc] at hq
        exact hq h
      have hl : fsLookup ((q, Node.dir) :: acc) p = fsLookup acc p := by
        simp [fsLookup, if_neg hne]
      rw [ih _ p (by rw [hl]; exact h), hl]

theorem mkdirFold_new (qs : List FsPath) :
    ∀ (acc : FS) (p : FsPath), p ∈ qs →
      (fsLookup (qs.foldl
        (fun acc q => if (fsLookup acc q).isSome then acc else (q, Node.dir) :: acc) acc) p).isSome
        = true := by
  induction qs with
  | nil => intro acc p h; simp at h
  | cons q qs ih =>
    intro acc p h
    simp only [List.foldl_cons]
    rcases List.mem_cons.mp h with rfl | h
    · by_cases hq : (fsLookup acc p).isSome = true
      · rw [if_pos hq, mkdirFold_preserve qs acc p hq]
        exact hq
      · rw [if_neg hq]
        have hl : (fsLookup ((p, Node.dir) :: acc) p).isSome = true := by
          simp [fsLookup]
        rw [mkdirFold_preserve qs _ p hl]
        exact hl
    · by_cases hq : (fsLookup acc q).isSome = true
      · rw [if_pos hq]; exact ih acc p h
      · rw [if_neg hq]; exact ih _ p h

theorem mkdirFold_frame (qs : List FsPath) :
    ∀ (acc : FS) (p : FsPath), p ∉ qs →
      fsLookup (qs.foldl
        (fun acc q => if (fsLookup acc q).isSome then acc else (q, Node.dir) :: acc) acc) p
        = fsLookup acc p := by
  induction qs with
  | nil => intro acc p _; simp
  | cons q qs ih =>
    intro acc p h
    have hne : ¬ (q = p) := fun hc => h (by rw [hc]; exact List.mem_cons_self _ _)
    have hmem : p ∉ qs := fun hc => h (List.mem_cons_of_mem _ hc)
    simp only [List.foldl_cons]
    by_cases hq : (fsLookup acc q).isSome = true
    · rw [if_pos hq]; exact ih acc p hmem
    · rw [if_neg hq, ih _ p hmem]
      simp [fsLookup, if_neg hne]

theorem mkdir_preserve {fs : FS} {p q : FsPath} (h : (fsLookup fs q).isSome = true) :
    fsLookup (mkdirParents fs p) q = fsLookup fs q :=
  mkdirFold_preserve (pathPrefixes p) fs q h

theorem mkdir_new {fs : FS} {p q : FsPath} (h : q ∈ pathPrefixes p) :
    (fsLookup (mkdirParents fs p) q).isSome = true :=
  mkdirFold_new (pathPrefixes p) fs q h

theorem mkdir_frame {fs : FS} {p q : FsPath} (h : q ∉ pathPrefixes p) :
    fsLookup (mkdirParents fs p) q = fsLookup fs q :=
  mkdirFold_frame (pathPrefixes p) fs q h

/-- Claim C2: for every definition, validated OS role, direction and game, if
the resolved source path does not exist then `perform` makes no filesystem
change at all — the returned state is the input state, so the trash area and
the target are untouched — and the run ends in the `aborted` report. -/
theorem perform_missing_source :
    ∀ (d : GameDefs) (current_os direction game stamp : Str) (fs : FS),
      (current_os = "windows".toList ∨ current_os = "linux".toList) →
      fsLookup fs (resolvePaths d current_os direction).1 = none →
      perform d current_os direction game stamp fs = .ok (fs, .aborted) := by
  intro d current_os direction game stamp fs _ h
  simp [perform, performGen, h]

/-- Claim C2 witness: a concrete aborted run. -/
theorem perform_missing_source_witness :
    perform ⟨"/x".toList, "/y".toList, "/z".toList, "/w".toList⟩ "windows".toList
      "windows→linux".toList "g".toList "s".toList [] = .ok ([], .aborted) :=
  perform_missing_source _ _ _ _ _ [] (Or.inl rfl) (by decide)

/-- Claim C4: whenever the backup step has completed and the copy step fails
with any error, `perform` catches the error at the orchestrator boundary,
reports it as a non-fatal copy failure, and returns normally (an `.ok`
result, not a propagating exception); the state it returns is exactly the
state the copy engine left behind, so the backup already moved into the
trash area is not rolled back — `perform` performs no further filesystem
action after the failure. -/
theorem perform_copy_failure_nonfatal :
    ∀ (copyE : FS → FsPath → FsPath → FS × Option String)
      (d : GameDefs) (current_os direction game stamp : Str) (fs fs2 : FS) (e : String),
      (current_os = "windows".toList ∨ current_os = "linux".toList) →
      (fsLookup fs (resolvePaths d current_os direction).1).isSome = true →
      copyE (backup stamp fs (resolvePaths d current_os direction).2 game)
        (resolvePaths d current_os direction).1 (resolvePaths d current_os direction).2
        = (fs2, some e) →
      performGen realBackupE copyE d current_os direction game stamp fs
        = .ok (fs2, .copyFailed e) := by
  intro copyE d current_os direction game stamp fs fs2 e _ hsrc hcopy
  simp [performGen, realBackupE, hsrc, hcopy]

/-- Claim C4 witness: a concrete run whose copy engine fails. -/
theorem perform_copy_failure_nonfatal_witness :
    performGen realBackupE (fun f _ _ => (f, some "disk full"))
      ⟨"/x".toList, "/y".toList, "/z".toList, "/w".toList⟩ "windows".toList
      "windows→linux".toList "g".toList "s".toList [(["x".toList], Node.file [1])]
      = .ok ([(["x".toList], Node.file [1])], .copyFailed "disk full") :=
  perform_copy_failure_nonfatal (fun f _ _ => (f, some "disk full")) _ _ _ _ _
    [(["x".toList], Node.file [1])] [(["x".toList], Node.file [1])] "disk full"
    (Or.inl rfl) (by decide) (by decide)

/-- Claim C10: if the backup step itself raises, `perform` does not catch it —
only the copy call sits inside the `try` block — so the error propagates out
of `perform` uncaught instead of being reported as a non-fatal sync
failure. -/
theorem perform_backup_failure_uncaught :
    ∀ (backupE : FS → FsPath → Str → Str → Except String FS)
      (copyE : FS → FsPath → FsPath → FS × Option String)
      (d : GameDefs) (current_os direction game stamp : Str) (fs : FS) (e : String),
      (current_os = "windows".toList ∨ current_os = "linux".toList) →
      (fsLookup fs (resolvePaths d current_os direction).1).isSome = true →
      backupE fs (resolvePaths d current_os direction).2 game stamp = .error e →
      performGen backupE copyE d current_os direction game stamp fs = .error e := by
  intro backupE copyE d current_os direction game stamp fs e _ hsrc hbk
  simp [performGen, hsrc, hbk]

/-- The effect of `mkdir` plus `shutil.move` into a fresh destination area
`dest`, separated from the source entry `dst`: the whole subtree at `dst`
reappears under `dest ++ [name]`, the original location becomes absent, and
every prefix of `dest` exists afterwards. -/
theorem moveEntry_fresh (fs : FS) (dst dest : FsPath) (name : Str)
    (hH1 : ∀ u, pathUnder dst (dest ++ u) = false)
    (hH2 : ∀ q, q ∈ pathPrefixes dest → pathUnder dst q = false)
    (hH3 : ∀ u, (dst ++ u) ∉ pathPrefixes dest)
    (hH4 : ∀ q, pathUnder dest q = true → fsLookup fs q = none) :
    (∀ t, fsLookup (moveEntry (mkdirParents fs dest) dst (dest ++ [name])) ((dest ++ [name]) ++ t)
        = fsLookup fs (dst ++ t)) ∧
    fsLookup (moveEntry (mkdirParents fs dest) dst (dest ++ [name])) dst = none ∧
    (∀ q, q ∈ pathPrefixes dest →
      (fsLookup (moveEntry (mkdirParents fs dest) dst (dest ++ [name])) q).isSome = true) := by
  have hfr3 : (dest ++ [name]) ∉ pathPrefixes dest := by
    intro hc
    have hlen := pathUnder_length (mem_pathPrefixes.mp hc).2
    simp [List.length_append] at hlen
  have hlkmv : fsLookup (mkdirParents fs dest) (dest ++ [name]) = none := by
    rw [mkdir_frame hfr3]
    exact hH4 _ (pathUnder_app dest [name])
  have hmv : moveEntry (mkdirParents fs dest) dst (dest ++ [name])
      = underLayer (mkdirParents fs dest) dst (dest ++ [name])
        ++ (mkdirParents fs dest).filter (fun e => !pathUnder dst e.1) := by
    rw [moveEntry, hlkmv]
    rfl
  refine ⟨?_, ?_, ?_⟩
  · intro t
    rw [hmv, fsLookup_append, underLayer_lookup_in dst (dest ++ [name]) t,
      mkdir_frame (hH3 t)]
    by_cases hsome : (fsLookup fs (dst ++ t)).isSome = true
    · rw [if_pos hsome]
    · rw [if_neg hsome]
      have hput : pathUnder dst (dest ++ name :: t) = false := hH1 (name :: t)
      have hput2 : pathUnder dst ((dest ++ [name]) ++ t) = false := by
        rw [List.append_assoc]
        exact hput
      have hfr : ((dest ++ [name]) ++ t) ∉ pathPrefixes dest := by
        intro hc
        have hlen := pathUnder_length (mem_pathPrefixes.mp hc).2
        simp only [List.length_append, List.length_singleton] at hlen
        omega
      rw [fsLookup_filterNot, if_neg (by simp [hput, hput2]), mkdir_frame hfr]
      have hnone : fsLookup fs ((dest ++ [name]) ++ t) = none := by
        apply hH4
        rw [List.append_assoc]
        exact pathUnder_app dest ([name] ++ t)
      rw [hnone]
      have h0 : fsLookup fs (dst ++ t) = none :=
        Option.not_isSome_iff_eq_none.mp (by simpa using hsome)
      rw [h0]
  · rw [hmv, fsLookup_append]
    have h1 : fsLookup (underLayer (mkdirParents fs dest) dst (dest ++ [name])) dst = none := by
      apply underLayer_lookup_out
      cases h' : pathUnder (dest ++ [name]) dst
      · rfl
      · exfalso
        obtain ⟨u, hu⟩ := (pathUnder_iff _ _).mp h'
        have h2 := hH1 ([name] ++ u)
        rw [← List.append_assoc, ← hu] at h2
        have h3 := pathUnder_self dst
        rw [h2] at h3
        exact Bool.noConfusion h3
    rw [h1]
    rw [if_neg (by simp)]
    rw [fsLookup_filterNot, if_pos (pathUnder_self dst)]
  · intro q hq
    rw [hmv, fsLookup_append]
    have h1 : fsLookup (underLayer (mkdirParents fs dest) dst (dest ++ [name])) q = none := by
      apply underLayer_lookup_out
      cases h' : pathUnder (dest ++ [name]) q
      · rfl
      · exfalso
        have hl1 := pathUnder_length h'
        have hl2 := pathUnder_length (mem_pathPrefixes.mp hq).2
        simp [List.length_append] at hl1
        omega
    rw [h1]
    rw [if_neg (by simp)]
    rw [fsLookup_filterNot, if_neg (by simp [hH2 q hq])]
    exact mkdir_new hq

/-- Claim C3: `backup(target, game)` is a no-op when the target does not
exist (the state, hence also the trash area, is unchanged); when the target
exists — a target outside the trash area, moved under a fresh timestamp tag —
the whole entry is moved (not copied) to
`trash_root/<tag>/<game>/<original final component>`: everything below the
target reappears below the trash destination, the original location becomes
absent, and all parent directories of the trash destination exist
afterwards. -/
theorem backup_spec :
    (∀ (stamp : Str) (fs : FS) (dst : FsPath) (game : Str),
      fsLookup fs dst = none → backup stamp fs dst game = fs) ∧
    (∀ (stamp : Str) (fs : FS) (dst : FsPath) (game : Str) (n : Node),
      fsLookup fs dst = some n →
      dst ≠ [] →
      pathUnder TRASH dst = false →
      (∀ q, pathUnder (TRASH ++ [stamp, game]) q = true → fsLookup fs q = none) →
      ((∀ t, fsLookup (backup stamp fs dst game)
          ((TRASH ++ [stamp, game] ++ [dst.getLastD []]) ++ t) = fsLookup fs (dst ++ t)) ∧
        fsLookup (backup stamp fs dst game) dst = none ∧
        (∀ q, q ∈ pathPrefixes (TRASH ++ [stamp, game]) →
          (fsLookup (backup stamp fs dst game) q).isSome = true))) := by
  constructor
  · intro stamp fs dst game h
    simp [backup, h]
  · intro stamp fs dst game n hdst hne htr hfresh
    obtain ⟨d0, dtl, rfl⟩ : ∃ d0 dtl, dst = d0 :: dtl := by
      cases dst with
      | nil => exact absurd rfl hne
      | cons a b => exact ⟨a, b, rfl⟩
    have hd0 : ¬ (d0 = "Trash".toList) := by
      intro hc
      have h1 : pathUnder TRASH (d0 :: dtl) = true := by
        rw [hc]
        exact (pathUnder_iff _ _).mpr ⟨dtl, rfl⟩
      rw [h1] at htr
      exact Bool.noConfusion htr
    have hdec : (decide (d0 = "Trash".toList)) = false := decide_eq_false hd0
    have hISome : (fsLookup fs (d0 :: dtl)).isSome = true := by rw [hdst]; rfl
    have hbk : backup stamp fs (d0 :: dtl) game =
        moveEntry (mkdirParents fs (TRASH ++ [stamp, game])) (d0 :: dtl)
          ((TRASH ++ [stamp, game]) ++ [(d0 :: dtl).getLastD []]) := by
      simp [backup, hISome]
    have hH1 : ∀ u, pathUnder (d0 :: dtl) ((TRASH ++ [stamp, game]) ++ u) = false := by
      intro u
      have hform : (TRASH ++ [stamp, game]) ++ u = "Trash".toList :: ([stamp, game] ++ u) := rfl
      rw [hform]
      simp only [pathUnder]
      rw [hdec, Bool.false_and]
    have hH2 : ∀ q, q ∈ pathPrefixes (TRASH ++ [stamp, game]) →
        pathUnder (d0 :: dtl) q = false := by
      intro q hq
      obtain ⟨i, hi, hqe⟩ := by
        simpa only [pathPrefixes, List.mem_map, List.mem_range] using hq
      have hform : (TRASH ++ [stamp, game]).take (i + 1)
          = "Trash".toList :: ([stamp, game].take i) := rfl
      rw [hform] at hqe
      rw [← hqe]
      simp only [pathUnder]
      rw [hdec, Bool.false_and]
    have hH3 : ∀ u, ((d0 :: dtl) ++ u) ∉ pathPrefixes (TRASH ++ [stamp, game]) := by
      intro u hc
      have h1 := hH2 _ hc
      have h2 := pathUnder_app (d0 :: dtl) u
      rw [h1] at h2
      exact Bool.noConfusion h2
    have hall := moveEntry_fresh fs (d0 :: dtl) (TRASH ++ [stamp, game])
      ((d0 :: dtl).getLastD []) hH1 hH2 hH3 hfresh
    rw [hbk]
    exact hall

/-- Claim C3 witness: a concrete backup run through `backup_spec`. -/
theorem backup_spec_witness :
    fsLookup (backup "s".toList [(["b".toList], Node.file [7])] ["b".toList] "g".toList)
        (TRASH ++ ["s".toList, "g".toList] ++ ["b".toList] ++ []) = some (Node.file [7]) ∧
    fsLookup (backup "s".toList [(["b".toList], Node.file [7])] ["b".toList] "g".toList)
        ["b".toList] = none := by
  have hfresh : ∀ q, pathUnder (TRASH ++ ["s".toList, "g".toList]) q = true →
      fsLookup [(["b".toList], Node.file [7])] q = none := by
    intro q hq
    have hne : ¬ (["b".toList] = q) := by
      intro hc
      rw [← hc] at hq
      exact absurd hq (by decide)
    simp only [fsLookup]
    rw [if_neg hne]
  have h := (backup_spec.2 "s".toList [(["b".toList], Node.file [7])] ["b".toList] "g".toList
    (Node.file [7]) (by decide) (by decide) (by decide) hfresh)
  exact ⟨(h.1 []).trans (by decide), h.2.1⟩

theorem pathUnder_cons_ne {a b : Str} {rs xs : List Str} (h : ¬ (a = b)) :
    pathUnder (a :: rs) (b :: xs) = false := by
  simp only [pathUnder]
  rw [decide_eq_false h, Bool.false_and]

/-- A run of `performGen` past an existing source and a successful backup is
decided by the copy engine's result. -/
theorem performGen_run
    (backupE : FS → FsPath → Str → Str → Except String FS)
    (copyE : FS → FsPath → FsPath → FS × Option String)
    (d : GameDefs) (current_os direction game stamp : Str) (fs : FS)
    (hs : (fsLookup fs (resolvePaths d current_os direction).1).isSome = true)
    (fs1 : FS)
    (hb : backupE fs (resolvePaths d current_os direction).2 game stamp = .ok fs1) :
    performGen backupE copyE d current_os direction game stamp fs =
      match copyE fs1 (resolvePaths d current_os direction).1
          (resolvePaths d current_os direction).2 with
      | (fs2, none) => .ok (fs2, .success)
      | (fs2, some e) => .ok (fs2, .copyFailed e) := by
  unfold performGen
  rw [hs, hb]
  simp

/-- Claim C7: `perform` resolves source and target from the single definition
section named by the uppercased OS role, direction `windows→linux` taking the
section's `windows` path as source and its `linux` path as target, the other
direction swapping them; and in the concrete scenario — `WINDOWS.windows =
"/a"`, `WINDOWS.linux = "/b"`, OS role `windows`, direction `windows→linux`,
`/a` a directory containing `save.dat`, `/b` absent — the run succeeds, no
backup is taken (the trash area is untouched), and `/b/save.dat` afterwards
holds bytes identical to `/a/save.dat`. -/
theorem perform_resolution_scenario :
    (∀ d : GameDefs,
      resolvePaths d "windows".toList "windows→linux".toList
        = (strToPath d.WINDOWS_windows, strToPath d.WINDOWS_linux) ∧
      resolvePaths d "windows".toList "linux→windows".toList
        = (strToPath d.WINDOWS_linux, strToPath d.WINDOWS_windows) ∧
      resolvePaths d "linux".toList "windows→linux".toList
        = (strToPath d.LINUX_windows, strToPath d.LINUX_linux) ∧
      resolvePaths d "linux".toList "linux→windows".toList
        = (strToPath d.LINUX_linux, strToPath d.LINUX_windows)) ∧
    (∀ (lw ll game stamp : Str) (fs : FS) (c : List Nat),
      fsLookup fs ["a".toList] = some Node.dir →
      fsLookup fs ["a".toList, "save.dat".toList] = some (Node.file c) →
      fsLookup fs ["b".toList] = none →
      ∃ fs', perform ⟨"/a".toList, "/b".toList, lw, ll⟩ "windows".toList
          "windows→linux".toList game stamp fs = .ok (fs', .success) ∧
        fsLookup fs' ["b".toList, "save.dat".toList] = some (Node.file c) ∧
        (∀ q, pathUnder TRASH q = true → fsLookup fs' q = fsLookup fs q)) := by
  constructor
  · intro d
    exact ⟨rfl, rfl, rfl, rfl⟩
  · intro lw ll game stamp fs c h1 h2 h3
    have hrp : resolvePaths ⟨"/a".toList, "/b".toList, lw, ll⟩ "windows".toList
        "windows→linux".toList = (["a".toList], ["b".toList]) := rfl
    have hsome : (fsLookup fs ["a".toList]).isSome = true := by rw [h1]; rfl
    have hbk : backup stamp fs ["b".toList] game = fs := by
      unfold backup
      rw [h3]
      rfl
    have hcopy : copy fs ["a".toList] ["b".toList]
        = underLayer (mkdirParents fs ["b".toList]) ["a".toList] ["b".toList]
          ++ mkdirParents fs ["b".toList] := by
      unfold copy
      rw [h1]
    refine ⟨copy fs ["a".toList] ["b".toList], ?_, ?_, ?_⟩
    · unfold perform
      have hs : (fsLookup fs (resolvePaths ⟨"/a".toList, "/b".toList, lw, ll⟩
          "windows".toList "windows→linux".toList).1).isSome = true := by
        rw [hrp]
        exact hsome
      have hb : realBackupE fs (resolvePaths ⟨"/a".toList, "/b".toList, lw, ll⟩
          "windows".toList "windows→linux".toList).2 game stamp = .ok fs := by
        rw [hrp]
        show Except.ok (backup stamp fs ["b".toList] game) = Except.ok fs
        rw [hbk]
      rw [performGen_run realBackupE realCopyE _ _ _ game stamp fs hs fs hb, hrp]
      rfl
    · rw [hcopy, fsLookup_append]
      have hin := underLayer_lookup_in ["a".toList] ["b".toList] ["save.dat".toList]
        (mkdirParents fs ["b".toList])
      simp only [List.cons_append, List.nil_append] at hin
      rw [hin, mkdir_frame (by decide), h2]
      rfl
    · intro q hq
      obtain ⟨t, rfl⟩ := (pathUnder_iff _ _).mp hq
      have hf : TRASH ++ t = "Trash".toList :: t := rfl
      rw [hcopy, fsLookup_append, hf]
      have hout : fsLookup (underLayer (mkdirParents fs ["b".toList]) ["a".toList] ["b".toList])
          ("Trash".toList :: t) = none := by
        apply underLayer_lookup_out
        exact pathUnder_cons_ne (by decide)
      rw [hout, if_neg (by simp)]
      apply mkdir_frame
      intro hc
      rw [show pathPrefixes ["b".toList] = [["b".toList]] from rfl] at hc
      simp only [List.mem_singleton] at hc
      have h5 : ("Trash".toList :: t) = ["b".toList] := hc
      simp at h5

/-- Claim C7 witness: a concrete run of the scenario — afterwards
`/b/save.dat` holds the source bytes. -/
theorem perform_resolution_scenario_witness :
    fsLookup ((perform ⟨"/a".toList, "/b".toList, "/x".toList, "/y".toList⟩ "windows".toList
        "windows→linux".toList "g".toList "s".toList
        [(["a".toList], Node.dir),
          (["a".toList, "save.dat".toList], Node.file [1, 2])]).toOption.getD
        ([], Outcome.aborted)).1 ["b".toList, "save.dat".toList] = some (Node.file [1, 2]) := by
  obtain ⟨fs', hperf, hlk, -⟩ := perform_resolution_scenario.2 "/x".toList "/y".toList
    "g".toList "s".toList
    [(["a".toList], Node.dir), (["a".toList, "save.dat".toList], Node.file [1, 2])]
    [1, 2] (by decide) (by decide) (by decide)
  rw [hperf]
  simpa [Except.toOption] using hlk

/-- Claim C10 witness: a concrete run whose backup engine raises. -/
theorem perform_backup_failure_uncaught_witness :
    performGen (fun _ _ _ _ => .error "move failed") realCopyE
      ⟨"/x".toList, "/y".toList, "/z".toList, "/w".toList⟩ "windows".toList
      "windows→linux".toList "g".toList "s".toList [(["x".toList], Node.dir)]
      = .error "move failed" :=
  perform_backup_failure_uncaught (fun _ _ _ _ => .error "move failed") realCopyE _ _ _ _ _
    [(["x".toList], Node.dir)] "move failed" (Or.inl rfl) (by decide) rfl

end SaveSyncer
